import Mathlib

/-!
Verification model of the document / pipeline / update normalization layer of
the mongo-go-driver sample (`src/mongo/mongo.go`).

Binary BSON documents are modelled as lists of natural numbers (one per byte).
The binary document / array primitive library (`bsoncore`) and the value
encoder / decoder (`bson` package) are external collaborators of the core and
are not part of `src/`; following the specification they are modelled here as
byte-level primitives on length-prefixed buffers (reserve-length,
append-typed-element, patch-length, lookup, indexed access, enumeration,
structural validation).  Signed 32-bit lengths are modelled as `Int`
(two's-complement reconstruction from the little-endian bytes); loops over a
buffer are expressed with an explicit fuel argument bounded by the buffer
length, which matches the source loops on all inputs on which they terminate.
-/

namespace Mongo

/-- A binary buffer: one natural number per byte. -/
abbrev Bytes := List Nat

/-- Little-endian encoding of the low 32 bits of a natural number,
as written by the builder's length-patch primitive. -/
def le32 (n : Nat) : Bytes :=
  [n % 256, n / 256 % 256, n / 65536 % 256, n / 16777216 % 256]

/-- Two's-complement reconstruction of a signed 32-bit integer from four
little-endian bytes. -/
def int32OfLE (b0 b1 b2 b3 : Nat) : Int :=
  if b0 % 256 + 256 * (b1 % 256) + 65536 * (b2 % 256) + 16777216 * (b3 % 256) < 2147483648
  then (b0 % 256 + 256 * (b1 % 256) + 65536 * (b2 % 256) + 16777216 * (b3 % 256) : Int)
  else (b0 % 256 + 256 * (b1 % 256) + 65536 * (b2 % 256) + 16777216 * (b3 % 256) : Int)
    - 4294967296

/-- Modelled from the spec: the Binary Document Builder's read-length
primitive (`bsoncore.ReadLength`): reads a signed 32-bit little-endian length
from the head of the buffer, returning it with the rest of the buffer. -/
def readLength (src : Bytes) : Option (Int × Bytes) :=
  match src with
  | b0 :: b1 :: b2 :: b3 :: rest => some (int32OfLE b0 b1 b2 b3, rest)
  | _ => none

/-- First index of a zero byte (Go's `bytes.IndexByte(src, 0x00)`). -/
def idxOfZero : Bytes → Option Nat
  | [] => none
  | b :: rest => if b = 0 then some 0 else (idxOfZero rest).map (· + 1)

/-- Modelled from the spec: the builder's per-type value-length computation
(`bsoncore.valueLength`): given the bytes following an element key and the
element's type tag, the byte length of the value. -/
def valueLength (src : Bytes) (t : Nat) : Option Int :=
  if t = 1 ∨ t = 9 ∨ t = 17 ∨ t = 18 then some 8          -- double, datetime, timestamp, int64
  else if t = 2 ∨ t = 13 ∨ t = 14 then                     -- string, javascript, symbol
    (readLength src).map (fun p => p.1 + 4)
  else if t = 3 ∨ t = 4 ∨ t = 15 then                      -- document, array, code-with-scope
    (readLength src).map (fun p => p.1)
  else if t = 5 then (readLength src).map (fun p => p.1 + 5)  -- binary
  else if t = 6 ∨ t = 10 ∨ t = 127 ∨ t = 255 then some 0   -- undefined, null, maxkey, minkey
  else if t = 7 then some 12                               -- object id
  else if t = 8 then some 1                                -- boolean
  else if t = 12 then (readLength src).map (fun p => p.1 + 16)  -- dbpointer
  else if t = 16 then some 4                               -- int32
  else if t = 19 then some 16                              -- decimal128
  else if t = 11 then                                      -- regex: two cstrings
    match idxOfZero src with
    | none => none
    | some r =>
      match idxOfZero (src.drop (r + 1)) with
      | none => none
      | some p => some ((r : Int) + 1 + (p : Int) + 1)
  else none

/-- Modelled from the spec: the builder's element-read primitive
(`bsoncore.ReadElement`): reads one typed key/value element from the head of
the buffer, returning the element bytes and the remaining bytes. -/
def readElement (src : Bytes) : Option (Bytes × Bytes) :=
  match src with
  | [] => none
  | t :: rest =>
    match idxOfZero rest with
    | none => none
    | some idx =>
      match valueLength (rest.drop (idx + 1)) t with
      | none => none
      | some vlen =>
        let elemLength : Int := (idx : Int) + 2 + vlen
        if elemLength < 0 ∨ (src.length : Int) < elemLength then none
        else some (src.take elemLength.toNat, src.drop elemLength.toNat)

/-- The key bytes of an element (Go's `Element.Key()`): the bytes after the
type tag up to the first zero byte. -/
def elemKey (e : Bytes) : Bytes :=
  (e.drop 1).takeWhile (· ≠ 0)

/-- A typed binary value: type tag plus payload bytes (`bsoncore.Value`). -/
structure BVal where
  type : Nat
  data : Bytes
deriving DecidableEq, Repr

/-- The typed value carried by an element (Go's `Element.Value()`). -/
def elemValue (e : Bytes) : BVal :=
  match e with
  | [] => ⟨0, []⟩
  | t :: rest =>
    match idxOfZero rest with
    | none => ⟨t, []⟩
    | some idx => ⟨t, rest.drop (idx + 1)⟩

/-- Errors surfaced by the normalization layer.  Constructors stand for the
distinct error conditions of the source; message payloads are elided. -/
inductive EncErr where
  | unsupportedShape
  | encodeFailure
deriving DecidableEq, Repr

inductive GoErr where
  | errNilDocument
  | marshalErr (e : EncErr)
  | encErr (e : EncErr)
  | valueMarshalerWrongType (t : Nat)
  | notSliceOrArray
  | invalidPipelineShape
  | validationFailed
  | insufficientBytes
  | outOfBounds
  | elementNotFound
  | emptyUpdateDocument
  | missingDollarKey
  | dollarKeyNotAllowed
  | unmarshalFailure
deriving DecidableEq, Repr

/-- Propositional equality of `Except` results is decidable when both
component types have decidable equality; concrete evaluations in the
witnesses below rely on it. -/
instance {e a : Type} [DecidableEq e] [DecidableEq a] : DecidableEq (Except e a) := fun x y =>
  match x, y with
  | .ok u, .ok v =>
    if h : u = v then .isTrue (by rw [h])
    else .isFalse (by intro hc; cases hc; exact h rfl)
  | .error u, .error v =>
    if h : u = v then .isTrue (by rw [h])
    else .isFalse (by intro hc; cases hc; exact h rfl)
  | .ok _, .error _ => .isFalse (by intro hc; cases hc)
  | .error _, .ok _ => .isFalse (by intro hc; cases hc)

/-- Loop body of the builder's element enumeration (`bsoncore.Array.Values`):
walks elements while more than the terminator byte remains, collecting each
element's typed value.  `fuel` bounds the iteration count by the buffer
length. -/
def valuesLoop : Nat → Int → Bytes → List BVal → Except GoErr (List BVal)
  | 0, _, _, _ => .error .insufficientBytes
  | fuel + 1, length, rem, acc =>
    if 1 < length then
      match readElement rem with
      | none => .error .insufficientBytes
      | some (elem, rest) =>
        valuesLoop fuel (length - (elem.length : Int)) rest (acc ++ [elemValue elem])
    else .ok acc

/-- Modelled from the spec: the builder's full element enumeration
(`bsoncore.Array.Values` / `Document.Values`): the list of typed values of a
length-prefixed binary array or document. -/
def values (a : Bytes) : Except GoErr (List BVal) :=
  match readLength a with
  | none => .error .insufficientBytes
  | some (length, rem) => valuesLoop (rem.length + 1) (length - 4) rem []

/-- Loop body of indexed element access (`bsoncore.Document.IndexErr`). -/
def indexLoop : Nat → Int → Bytes → Nat → Except GoErr Bytes
  | 0, _, _, _ => .error .insufficientBytes
  | fuel + 1, length, rem, current =>
    if 1 < length then
      match readElement rem with
      | none => .error .insufficientBytes
      | some (elem, rest) =>
        if current = 0 then .ok elem
        else indexLoop fuel (length - (elem.length : Int)) rest (current - 1)
    else .error .outOfBounds

/-- Modelled from the spec: the builder's indexed element access
(`bsoncore.Document.IndexErr`): the `index`-th element of a binary
document. -/
def indexErr (d : Bytes) (index : Nat) : Except GoErr Bytes :=
  match readLength d with
  | none => .error .insufficientBytes
  | some (length, rem) => indexLoop (rem.length + 1) (length - 4) rem index

/-- Loop body of lookup-by-key (`bsoncore.Document.LookupErr`, single key). -/
def lookupLoop : Nat → Int → Bytes → Bytes → Except GoErr BVal
  | 0, _, _, _ => .error .insufficientBytes
  | fuel + 1, length, rem, key =>
    if 1 < length then
      match readElement rem with
      | none => .error .insufficientBytes
      | some (elem, rest) =>
        if elemKey elem = key then .ok (elemValue elem)
        else lookupLoop fuel (length - (elem.length : Int)) rest key
    else .error .elementNotFound

/-- Modelled from the spec: the builder's lookup-by-key primitive
(`bsoncore.Document.LookupErr` restricted to a single, non-dotted key, which
is the only way the core calls it). -/
def lookupErr (d : Bytes) (key : Bytes) : Except GoErr BVal :=
  match readLength d with
  | none => .error .insufficientBytes
  | some (length, rem) => lookupLoop (rem.length + 1) (length - 4) rem key

/-- `Value.DocumentOK`: the payload of a value whose tag is embedded-document
(tag 3). -/
def documentOK (v : BVal) : Option Bytes :=
  if v.type = 3 then some v.data else none

/-- Modelled from the spec: the builder's length-patch primitive
(`bsoncore.UpdateLength`): overwrite the four bytes at `index` with the
little-endian encoding of `l`. -/
def updateLength (dst : Bytes) (index : Nat) (l : Nat) : Bytes :=
  dst.take index ++ le32 l ++ dst.drop (index + 4)

/-- Modelled from the spec: the builder's element-header append
(`bsoncore.AppendHeader`): type tag, key bytes, zero terminator. -/
def appendHeader (dst : Bytes) (t : Nat) (key : Bytes) : Bytes :=
  dst ++ t :: (key ++ [0])

/-- Modelled from the spec: the builder's reserve-length primitive
(`bsoncore.ReserveLength` / `AppendDocumentStart` / `AppendArrayStart`):
records the current offset and appends a four-byte placeholder. -/
def reserveLength (dst : Bytes) : Nat × Bytes :=
  (dst.length, dst ++ [0, 0, 0, 0])

/-- `bsoncore.AppendDocumentElementStart`: element header followed by a
reserved length slot. -/
def appendDocumentElementStart (dst : Bytes) (key : Bytes) : Nat × Bytes :=
  reserveLength (appendHeader dst 3 key)

/-- `bsoncore.AppendDocumentElement`: element header followed by the
already-encoded document bytes. -/
def appendDocumentElement (dst : Bytes) (key doc : Bytes) : Bytes :=
  appendHeader dst 3 key ++ doc

/-- Little-endian encoding of the low 64 bits of a signed integer. -/
def le64 (n : Int) : Bytes :=
  let u := (n % 18446744073709551616).toNat
  [u % 256, u / 256 % 256, u / 65536 % 256, u / 16777216 % 256,
   u / 4294967296 % 256, u / 1099511627776 % 256,
   u / 281474976710656 % 256, u / 72057594037927936 % 256]

/-- `bsoncore.AppendInt64Element`. -/
def appendInt64Element (dst : Bytes) (key : Bytes) (n : Int) : Bytes :=
  appendHeader dst 18 key ++ le64 n

/-- `bsoncore.AppendInt32Element`. -/
def appendInt32Element (dst : Bytes) (key : Bytes) (n : Int) : Bytes :=
  appendHeader dst 16 key ++ le32 (n % 4294967296).toNat

/-- `bsoncore.AppendObjectIDElement`: tag 7, key, twelve identifier bytes. -/
def appendObjectIDElement (dst : Bytes) (key : Bytes) (oid : Bytes) : Bytes :=
  appendHeader dst 7 key ++ oid

/-- Modelled from the spec: the builder's close-document primitive
(`bsoncore.AppendDocumentEnd` / `AppendArrayEnd`): append the terminator and
patch the length slot at `index` with the distance to the end.  The source
returns an error (and leaves the buffer alone) when `index` is past the end;
the core discards that error. -/
def appendDocumentEnd (dst : Bytes) (index : Nat) : Bytes :=
  if dst.length < index + 4 then dst
  else
    let dst' := dst ++ [0]
    updateLength dst' index (dst'.length - index)

/-- Digit expansion worker for `itoaBytes`; the fuel bounds the number of
digits and is always supplied large enough. -/
def itoaAux : Nat → Nat → Bytes
  | 0, _ => []
  | fuel + 1, n => if n < 10 then [48 + n] else itoaAux fuel (n / 10) ++ [48 + n % 10]

/-- Stringified decimal digits of a natural number, as bytes
(Go's `strconv.Itoa` for the non-negative indices used by the core). -/
def itoaBytes (n : Nat) : Bytes := itoaAux (n + 1) n

/-- Byte encoding of a string literal key. -/
def strBytes (s : String) : Bytes :=
  s.toList.map Char.toNat

/-- An element carrying an embedded document: what `AppendDocumentElement`
appends. -/
def docElement (key doc : Bytes) : Bytes :=
  3 :: (key ++ 0 :: doc)

/-- A document (or array) assembled from already-encoded element bytes:
length header, elements, terminator. -/
def mkDoc (body : Bytes) : Bytes :=
  le32 (body.length + 5) ++ body ++ [0]

/-- The element bytes of an array of documents keyed by stringified
sequential indices starting at `idx`. -/
def arrayBody : Nat → List Bytes → Bytes
  | _, [] => []
  | idx, d :: rest => docElement (itoaBytes idx) d ++ arrayBody (idx + 1) rest

/-- The canonical binary array holding the given documents at stringified
indices 0, 1, 2, …: the shape produced by the core's pipeline loops. -/
def mkDocArray (ds : List Bytes) : Bytes :=
  mkDoc (arrayBody 0 ds)

/-- The twelve-byte zero object identifier (`bson.NilObjectID`). -/
def zeroOID : Bytes := List.replicate 12 0

/-- Modelled from the spec: structural validation of a pre-built array
(`bsoncore.Array.Validate`).  The length header must describe the buffer, the
buffer must end with the terminator, the elements must enumerate, and their
keys must be the stringified indices in ascending order.  Element-level deep
validation is elided: every use in the core depends only on the
success/failure of this check. -/
def validateArr (a : Bytes) : Bool :=
  match readLength a with
  | none => false
  | some (length, _) =>
    length = (a.length : Int) && a.getLast? = some 0 &&
      match values a with
      | .error _ => false
      | .ok _ => true

/-- The dynamic shapes a caller-supplied value can take, as dispatched on by
the core's type switches.  Self-encoding values carry the (black-box) result
of their own marshaling method; an ordered key/value sequence (`bson.D`)
carries its pair count and the (black-box) result of encoding it, since the
external Value Encoder's behaviour on it is opaque to the core. -/
inductive GoValue where
  | goNil
  | goBytes (bs : Bytes)
  | goRaw (bs : Bytes)
  | coreDoc (bs : Bytes)
  | coreArr (bs : Bytes)
  | bsonD (n : Nat) (enc : Except EncErr Bytes)
  | bsonMarshaler (res : Except EncErr Bytes)
  | valueMarshaler (res : Except EncErr (Nat × Bytes))
  | scalar (enc : Except EncErr Bytes)
  | slice (elems : List GoValue)

/-- Modelled from the spec: the external Value Encoder (spec 4.1, 6).  A raw
byte sequence (`bson.Raw`) and a pre-encoded document are reinterpreted as
already-encoded documents and returned as-is (zero-copy); an ordered
key/value sequence, a self-marshaling value and any other scalar produce
their black-box encoder result; a self-encoding value must declare the
embedded-document type at the top level; sequences and nil cannot be encoded
as a top-level document. -/
def encode : GoValue → Except EncErr Bytes
  | .goRaw bs => .ok bs
  | .goBytes bs => .ok bs
  | .coreDoc bs => .ok bs
  | .bsonD _ res => res
  | .bsonMarshaler res => res
  | .valueMarshaler (.error e) => .error e
  | .valueMarshaler (.ok (t, data)) => if t = 3 then .ok data else .error .unsupportedShape
  | .scalar res => res
  | .goNil => .error .unsupportedShape
  | .coreArr _ => .error .unsupportedShape
  | .slice _ => .error .unsupportedShape

/-- `marshal` (mongo.go:105): nil fails with `ErrNilDocument`; a byte slice is
reinterpreted as `bson.Raw` before encoding; encoder failures are wrapped as
`MarshalError`.  Encoding options and the registry are forwarded opaquely to
the external encoder and are elided from the model. -/
def marshal (val : GoValue) : Except GoErr Bytes :=
  match val with
  | .goNil => .error .errNilDocument
  | v =>
    let v := match v with
      | .goBytes bs => .goRaw bs
      | x => x
    match encode v with
    | .error e => .error (.marshalErr e)
    | .ok bs => .ok bs

/-- The decoded Go value of an identifier: either the object identifier the
core itself injected, or the decoded form of a stored BSON value. -/
inductive IDValue where
  | fromOID (o : Bytes)
  | fromBSON (v : BVal)
deriving DecidableEq, Repr

/-- Modelled from the spec: the external decoder's decoding of the stored
identifier value (spec 4.2: decode only that field's value; decode failure
surfaces as an error).  A value decodes exactly when its payload is
structurally sound for its type tag; the decoded Go value corresponds
one-to-one to the stored binary value. -/
def decodableValue (v : BVal) : Bool :=
  if v.type = 3 ∨ v.type = 4 then (values v.data).toOption.isSome
  else valueLength v.data v.type = some (v.data.length : Int)

/-- Modelled from the spec: actual decoding of the stored identifier. -/
def decodeIDValue (v : BVal) : Except GoErr IDValue :=
  if decodableValue v then .ok (.fromBSON v) else .error .unmarshalFailure

/-- The identifier key bytes: `"_id"`. -/
def idKey : Bytes := strBytes "_id"

/-- `ensureID` (mongo.go:138): if the document already carries an `_id`
element, decode that identifier and return the document unchanged; otherwise
rebuild the document with a fresh length slot, the `_id` element first, the
original element bytes after it, and a patched outer length.  `freshOID`
stands for the identifier `bson.NewObjectID()` would generate when the
supplied one is zero. -/
def ensureID (doc : Bytes) (oid : Bytes) (freshOID : Bytes) :
    Except GoErr (Bytes × IDValue) :=
  match lookupErr doc idKey with
  | .ok v =>
    match decodeIDValue v with
    | .error e => .error e
    | .ok idVal => .ok (doc, idVal)
  | .error _ =>
    let olddoc := doc
    let oid := if oid = zeroOID then freshOID else oid
    let d0 := (reserveLength []).2
    let d1 := appendObjectIDElement d0 idKey oid
    let d2 := d1 ++ olddoc.drop 4
    let d3 := updateLength d2 0 d2.length
    .ok (d3, .fromOID oid)

/-- `ensureDollarKey` (mongo.go:187): the update document must have a first
element and its key must begin with the operator sigil `$` (byte 36). -/
def ensureDollarKey (doc : Bytes) : Except GoErr Unit :=
  match indexErr doc 0 with
  | .error _ => .error .emptyUpdateDocument
  | .ok firstElem =>
    if (elemKey firstElem).head? = some 36 then .ok ()
    else .error .missingDollarKey

/-- `ensureNoDollarKey` (mongo.go:199): a replacement document must not have
a first element whose key begins with the operator sigil. -/
def ensureNoDollarKey (doc : Bytes) : Except GoErr Unit :=
  match indexErr doc 0 with
  | .ok elem =>
    if (elemKey elem).head? = some 36 then .error .dollarKeyNotAllowed else .ok ()
  | .error _ => .ok ()

/-- The output-stage test the core applies to one stage document: its first
element exists and is keyed `$out` or `$merge` (mongo.go:284). -/
def outputStageDoc (doc : Bytes) : Bool :=
  match indexErr doc 0 with
  | .ok elem => elemKey elem = strBytes "$out" || elemKey elem = strBytes "$merge"
  | .error _ => false

/-- The output-stage test the core applies to an enumerated value list: the
final value is a document whose first element is keyed `$out` or `$merge`
(mongo.go:225 and mongo.go:267). -/
def lastStageIsOutput (vs : List BVal) : Bool :=
  match vs.getLast? with
  | none => false
  | some v =>
    match documentOK v with
    | none => false
    | some doc => outputStageDoc doc

/-- The per-element loop of `marshalAggregatePipeline` (mongo.go:277):
marshal each element, record the output-stage fact for the final one, append
it under its stringified index, and close the array. -/
def pipelineLoop : List GoValue → Nat → Bytes → Bool → Except GoErr (Bytes × Bool)
  | [], _, arr, hos => .ok (appendDocumentEnd arr 0, hos)
  | v :: rest, idx, arr, hos =>
    match marshal v with
    | .error e => .error e
    | .ok doc =>
      let hos := if rest.isEmpty then outputStageDoc doc else hos
      pipelineLoop rest (idx + 1) (arr ++ docElement (itoaBytes idx) doc) hos

/-- The elements the generic (reflective) pipeline path iterates over: the
members of a slice, or — for a plain byte slice, which the source does not
single out — its individual bytes, which the external encoder rejects as
top-level documents. -/
def elemsOf : GoValue → List GoValue
  | .slice es => es
  | .goBytes bs => bs.map fun _ => .scalar (.error .unsupportedShape)
  | _ => []

/-- `marshalAggregatePipeline` (mongo.go:207): dispatch over the pipeline's
dynamic shape.  A self-encoding value must declare the array type and its
bytes are taken as-is; non-empty single-document shapes (`bson.D`,
`bson.Raw`, `bsoncore.Document`) are rejected; a pre-encoded array is
validated and taken as-is; everything slice-shaped is marshaled element by
element; anything else is not a slice or array. -/
def marshalAggregatePipeline (pipeline : GoValue) : Except GoErr (Bytes × Bool) :=
  match pipeline with
  | .valueMarshaler res =>
    match res with
    | .error e => .error (.encErr e)
    | .ok (btype, val) =>
      if btype ≠ 4 then .error (.valueMarshalerWrongType btype)
      else .ok (val, lastStageIsOutput ((values val).toOption.getD []))
  | .goNil => .error .notSliceOrArray
  | .bsonMarshaler _ => .error .notSliceOrArray
  | .scalar _ => .error .notSliceOrArray
  | .bsonD n _ =>
    if 0 < n then .error .invalidPipelineShape
    else pipelineLoop [] 0 (reserveLength []).2 false
  | .goRaw bs =>
    if 0 < bs.length then .error .invalidPipelineShape
    else pipelineLoop [] 0 (reserveLength []).2 false
  | .coreDoc bs =>
    if 0 < bs.length then .error .invalidPipelineShape
    else pipelineLoop [] 0 (reserveLength []).2 false
  | .coreArr bs =>
    if validateArr bs then
      match values bs with
      | .error e => .error e
      | .ok vs =>
        if vs.length = 0 then .ok (bs, false)
        else .ok (bs, lastStageIsOutput vs)
    else .error .validationFailed
  | .goBytes bs => pipelineLoop (elemsOf (.goBytes bs)) 0 (reserveLength []).2 false
  | .slice es => pipelineLoop es 0 (reserveLength []).2 false

/-- The per-element loop of `marshalUpdateValue`'s pipeline-style branch
(mongo.go:368): marshal each element, run the selected structural check on
it, append it under its stringified index, and close the array. -/
def updateLoop (checker : Bytes → Except GoErr Unit) :
    List GoValue → Nat → Bytes → Except GoErr Bytes
  | [], _, arr => .ok (appendDocumentEnd arr 0)
  | v :: rest, idx, arr =>
    match marshal v with
    | .error e => .error e
    | .ok doc =>
      match checker doc with
      | .error e => .error e
      | .ok _ => updateLoop checker rest (idx + 1) (arr ++ docElement (itoaBytes idx) doc)

/-- `marshalUpdateValue` (mongo.go:295): select the dollar-key check, then
dispatch over the update's dynamic shape.  Document-like shapes are
document-tagged and checked; a self-encoding value must declare the array or
embedded-document type and its tagged bytes are returned as-is; any other
non-sequence value is marshaled as one document and checked; sequences (and
the byte-based `bsoncore.Array`, which reaches the reflective branch) are
built into a checked array. -/
def marshalUpdateValue (update : GoValue) (dollarKeysAllowed : Bool) :
    Except GoErr BVal :=
  let checker := if dollarKeysAllowed then ensureDollarKey else ensureNoDollarKey
  match update with
  | .goNil => .error .errNilDocument
  | .bsonD n enc =>
    match marshal (.bsonD n enc) with
    | .error e => .error e
    | .ok data =>
      match checker data with
      | .error e => .error e
      | .ok _ => .ok ⟨3, data⟩
  | .goRaw bs =>
    match checker bs with
    | .error e => .error e
    | .ok _ => .ok ⟨3, bs⟩
  | .coreDoc bs =>
    match checker bs with
    | .error e => .error e
    | .ok _ => .ok ⟨3, bs⟩
  | .goBytes bs =>
    match checker bs with
    | .error e => .error e
    | .ok _ => .ok ⟨3, bs⟩
  | .bsonMarshaler res =>
    match res with
    | .error e => .error (.encErr e)
    | .ok data =>
      match checker data with
      | .error e => .error e
      | .ok _ => .ok ⟨3, data⟩
  | .valueMarshaler res =>
    match res with
    | .error e => .error (.encErr e)
    | .ok (t, data) =>
      if t ≠ 4 ∧ t ≠ 3 then .error (.valueMarshalerWrongType t)
      else .ok ⟨t, data⟩
  | .scalar enc =>
    match marshal (.scalar enc) with
    | .error e => .error e
    | .ok data =>
      match checker data with
      | .error e => .error e
      | .ok _ => .ok ⟨3, data⟩
  | .coreArr bs =>
    (updateLoop checker (bs.map fun _ => .scalar (.error .unsupportedShape))
        0 (reserveLength []).2).map fun data => ⟨4, data⟩
  | .slice es =>
    (updateLoop checker es 0 (reserveLength []).2).map fun data => ⟨4, data⟩

/-- The optional skip/limit arguments of the count helper
(`options.CountOptions`). -/
structure CountOptions where
  skip : Option Int
  limit : Option Int
deriving DecidableEq, Repr

/-- `countDocumentsAggregatePipeline` (mongo.go:394): marshal the filter,
then assemble the fixed `$match`, optional `$skip`, optional `$limit`,
`$group` stages under sequentially assigned stringified indices. -/
def countDocumentsAggregatePipeline (filter : GoValue) (args : Option CountOptions) :
    Except GoErr Bytes :=
  match marshal filter with
  | .error e => .error e
  | .ok filterDoc =>
    let a := reserveLength []
    let s1 := appendDocumentElementStart a.2 (itoaBytes 0)
    let arr1 := appendDocumentElement s1.2 (strBytes "$match") filterDoc
    let arr2 := appendDocumentEnd arr1 s1.1
    let st :=
      match args with
      | none => (1, arr2)
      | some opts =>
        let stA :=
          match opts.skip with
          | none => (1, arr2)
          | some n =>
            let s := appendDocumentElementStart arr2 (itoaBytes 1)
            (2, appendDocumentEnd (appendInt64Element s.2 (strBytes "$skip") n) s.1)
        match opts.limit with
        | none => stA
        | some n =>
          let s := appendDocumentElementStart stA.2 (itoaBytes stA.1)
          (stA.1 + 1, appendDocumentEnd (appendInt64Element s.2 (strBytes "$limit") n) s.1)
    let sG := appendDocumentElementStart st.2 (itoaBytes st.1)
    let sI := appendDocumentElementStart sG.2 (strBytes "$group")
    let arr3 := appendInt32Element sI.2 (strBytes "_id") 1
    let sN := appendDocumentElementStart arr3 (strBytes "n")
    let arr4 := appendInt32Element sN.2 (strBytes "$sum") 1
    let arr5 := appendDocumentEnd arr4 sN.1
    let arr6 := appendDocumentEnd arr5 sI.1
    let arr7 := appendDocumentEnd arr6 sG.1
    .ok (appendDocumentEnd arr7 a.1)

/-! ### Specification-side characterizations

The following definitions follow the spec's words rather than the source's
control flow; the claim theorems relate the source translations above to
them. -/

/-- Follows the spec's words: a normalized pipeline "has an output stage"
exactly when it is non-empty, its last value is a document, and that
document's first field key is exactly `$out` or `$merge`; a pipeline whose
values cannot be enumerated has no stages. -/
def specHasOutputStage (arr : Bytes) : Bool :=
  lastStageIsOutput ((values arr).toOption.getD [])

/-- A buffer whose length header describes exactly its own byte length: the
contract every document produced by the external Value Encoder satisfies. -/
def docHeaderOKb (d : Bytes) : Bool :=
  match readLength d with
  | some (l, _) => l = (d.length : Int)
  | none => false

/-- The Value Encoder contract on a pipeline's iterated elements: whenever
marshaling an element succeeds, the resulting document's length header
describes its byte length. -/
def elemsWF (v : GoValue) : Bool :=
  (elemsOf v).all fun e =>
    match marshal e with
    | .ok d => docHeaderOKb d
    | .error _ => true

/-- The normalized empty pipeline: an empty binary array. -/
def emptyPipelineBytes : Bytes := [5, 0, 0, 0, 0]

/-- The single-document-shaped pipeline containers of the source's forbidden
case list: `bson.D`, `bson.Raw`, `bsoncore.Document` (mongo.go:246). -/
def singleDocShaped : GoValue → Bool
  | .bsonD _ _ => true
  | .goRaw _ => true
  | .coreDoc _ => true
  | _ => false

/-- The reflective length (`reflect.Value.Len`) of a slice-shaped value. -/
def shapeLen : GoValue → Nat
  | .bsonD n _ => n
  | .goRaw bs => bs.length
  | .coreDoc bs => bs.length
  | .coreArr bs => bs.length
  | .goBytes bs => bs.length
  | .slice es => es.length
  | _ => 0

/-- Follows the spec's words: the document has a first element and its key
begins with the operator sigil. -/
def firstKeyStartsDollar (doc : Bytes) : Bool :=
  match indexErr doc 0 with
  | .ok e => (elemKey e).head? = some 36
  | .error _ => false

/-- Normalize one element to a document and run the given structural check
on it, keeping the first failure. -/
def checkedWith (checker : Bytes → Except GoErr Unit) (e : GoValue) :
    Except GoErr Bytes :=
  match marshal e with
  | .error err => .error err
  | .ok d =>
    match checker d with
    | .error err => .error err
    | .ok _ => .ok d

/-- Follows the spec's words (4.5): normalize one pipeline-style update
element to a document and run the selected structural check on it, keeping
the first failure. -/
def checkedMarshal (dollarKeysAllowed : Bool) : GoValue → Except GoErr Bytes :=
  checkedWith (if dollarKeysAllowed then ensureDollarKey else ensureNoDollarKey)

/-- The output-stage fact accumulated by the generic pipeline loop: the test
on the final document when there is one, the running value otherwise. -/
def lastCheck (ds : List Bytes) (hos : Bool) : Bool :=
  match ds.getLast? with
  | none => hos
  | some d => outputStageDoc d

/-- Follows the spec's words (4.6): the `$match` stage document. -/
def matchStage (fd : Bytes) : Bytes :=
  mkDoc (docElement (strBytes "$match") fd)

/-- Follows the spec's words (4.6): the `$skip` stage document. -/
def skipStage (n : Int) : Bytes :=
  mkDoc (appendInt64Element [] (strBytes "$skip") n)

/-- Follows the spec's words (4.6): the `$limit` stage document. -/
def limitStage (n : Int) : Bytes :=
  mkDoc (appendInt64Element [] (strBytes "$limit") n)

/-- Follows the spec's words (4.6): the `$group` stage document
`{$group: {_id: 1, n: {$sum: 1}}}`. -/
def groupStage : Bytes :=
  mkDoc (docElement (strBytes "$group")
    (mkDoc (appendInt32Element [] (strBytes "_id") 1
      ++ docElement (strBytes "n") (mkDoc (appendInt32Element [] (strBytes "$sum") 1)))))

/-- Follows the spec's words (4.6): the count pipeline's stage documents in
fixed order — `$match`, `$skip` if present, `$limit` if present, `$group`. -/
def countStages (fd : Bytes) (args : Option CountOptions) : List Bytes :=
  [matchStage fd]
    ++ (match args with
        | some o => match o.skip with | some n => [skipStage n] | none => []
        | none => [])
    ++ (match args with
        | some o => match o.limit with | some n => [limitStage n] | none => []
        | none => [])
    ++ [groupStage]

/-- Follows the spec's words: normalize a sequence of elements one by one,
stopping at the first failure. -/
def normalizeAll (f : GoValue → Except GoErr Bytes) : List GoValue → Except GoErr (List Bytes)
  | [] => .ok []
  | v :: rest =>
    match f v with
    | .error e => .error e
    | .ok d =>
      match normalizeAll f rest with
      | .error e => .error e
      | .ok ds => .ok (d :: ds)

/-- The concrete malformed buffer used to exhibit the unvalidated
self-encoding pipeline path: its length header claims seven bytes but only
five are present. -/
def badArr : Bytes := [7, 0, 0, 0, 1]

/-! ### Helper lemmas -/

theorem idxOfZero_append (key rest : Bytes) (hk : ∀ b ∈ key, b ≠ 0) :
    idxOfZero (key ++ 0 :: rest) = some key.length := by
  induction key with
  | nil => simp [idxOfZero]
  | cons b bs ih =>
    have hb : b ≠ 0 := hk b (by simp)
    have ih' := ih (fun x hx => hk x (by simp [hx]))
    simp [idxOfZero, hb, ih']

theorem itoaAux_mem : ∀ fuel n : Nat, ∀ b ∈ itoaAux fuel n, 48 ≤ b ∧ b < 58 := by
  intro fuel
  induction fuel with
  | zero =>
    intro n b hb
    simp [itoaAux] at hb
  | succ f ih =>
    intro n b hb
    simp only [itoaAux] at hb
    by_cases h : n < 10
    · simp [h] at hb
      omega
    · simp [h] at hb
      rcases hb with hb | hb
      · exact ih (n / 10) b hb
      · have := Nat.mod_lt n (y := 10) (by omega)
        omega

theorem itoaBytes_mem (n : Nat) : ∀ b ∈ itoaBytes n, 48 ≤ b ∧ b < 58 :=
  fun b hb => itoaAux_mem (n + 1) n b hb

theorem itoaBytes_ne_zero (n : Nat) : ∀ b ∈ itoaBytes n, b ≠ 0 := by
  intro b hb
  have := itoaBytes_mem n b hb
  omega

theorem itoaBytes_ne_nil (n : Nat) : itoaBytes n ≠ [] := by
  unfold itoaBytes
  simp only [itoaAux]
  by_cases h : n < 10 <;> simp [h]

theorem int32OfLE_le32 (n : Nat) (h : n < 2147483648) :
    int32OfLE (n % 256) (n / 256 % 256) (n / 65536 % 256) (n / 16777216 % 256) = (n : Int) := by
  unfold int32OfLE
  have hu : n % 256 % 256 + 256 * (n / 256 % 256 % 256) + 65536 * (n / 65536 % 256 % 256)
      + 16777216 * (n / 16777216 % 256 % 256) = n := by omega
  rw [if_pos (by omega)]
  exact_mod_cast congrArg (Nat.cast : Nat → Int) hu

theorem readLength_le32 (n : Nat) (rest : Bytes) (h : n < 2147483648) :
    readLength (le32 n ++ rest) = some ((n : Int), rest) := by
  simp only [le32, List.cons_append, List.nil_append, readLength]
  rw [int32OfLE_le32 n h]

theorem docHeaderOKb_iff (d : Bytes) :
    docHeaderOKb d = true ↔
      ∃ b0 b1 b2 b3 r, d = b0 :: b1 :: b2 :: b3 :: r ∧
        int32OfLE b0 b1 b2 b3 = (d.length : Int) := by
  constructor
  · intro h
    match d with
    | [] => simp [docHeaderOKb, readLength] at h
    | [_] => simp [docHeaderOKb, readLength] at h
    | [_, _] => simp [docHeaderOKb, readLength] at h
    | [_, _, _] => simp [docHeaderOKb, readLength] at h
    | b0 :: b1 :: b2 :: b3 :: r =>
      refine ⟨b0, b1, b2, b3, r, rfl, ?_⟩
      simp only [docHeaderOKb, readLength] at h
      exact of_decide_eq_true h
  · rintro ⟨b0, b1, b2, b3, r, rfl, h⟩
    simp [docHeaderOKb, readLength, h]

theorem readLength_headerOK (d rest : Bytes) (h : docHeaderOKb d = true) :
    readLength (d ++ rest) = some ((d.length : Int), d.drop 4 ++ rest) := by
  rcases (docHeaderOKb_iff d).1 h with ⟨b0, b1, b2, b3, r, rfl, hv⟩
  simp only [List.cons_append, readLength, List.drop_succ_cons, List.drop_zero]
  rw [hv]

theorem headerOK_length_lt (d : Bytes) (h : docHeaderOKb d = true) :
    4 ≤ d.length ∧ (d.length : Int) < 2147483648 := by
  rcases (docHeaderOKb_iff d).1 h with ⟨b0, b1, b2, b3, r, rfl, hv⟩
  refine ⟨by simp only [List.length_cons]; omega, ?_⟩
  unfold int32OfLE at hv
  split at hv <;> omega

theorem readElement_docElement (key d tail : Bytes) (hk : ∀ b ∈ key, b ≠ 0)
    (hd : docHeaderOKb d = true) :
    readElement (docElement key d ++ tail) = some (docElement key d, tail) := by
  have hidx : idxOfZero (key ++ 0 :: (d ++ tail)) = some key.length :=
    idxOfZero_append key (d ++ tail) hk
  have hdrop : (key ++ 0 :: (d ++ tail)).drop (key.length + 1) = d ++ tail := by
    rw [show key ++ 0 :: (d ++ tail) = (key ++ [0]) ++ (d ++ tail) by simp]
    exact List.drop_left' (by simp)
  have hvl : valueLength ((key ++ 0 :: (d ++ tail)).drop (key.length + 1)) 3
      = some ((d.length : Int)) := by
    rw [hdrop]
    simp [valueLength, readLength_headerOK d tail hd]
  have hsplit : docElement key d ++ tail = 3 :: (key ++ 0 :: (d ++ tail)) := by
    simp [docElement]
  have hdl : (docElement key d).length = key.length + 2 + d.length := by
    simp only [docElement, List.length_cons, List.length_append]
    omega
  have htn : (((key.length : Int)) + 2 + ((d.length : Int))).toNat
      = key.length + 2 + d.length := by omega
  have htake : (3 :: (key ++ 0 :: (d ++ tail))).take (key.length + 2 + d.length)
      = docElement key d := by
    rw [← hsplit]
    exact List.take_left' hdl
  have hdrop2 : (3 :: (key ++ 0 :: (d ++ tail))).drop (key.length + 2 + d.length)
      = tail := by
    rw [← hsplit]
    exact List.drop_left' hdl
  rw [hsplit]
  simp only [readElement, hidx, hvl]
  rw [if_neg (by
    simp only [List.length_cons, List.length_append]
    push_cast
    omega)]
  rw [htn, htake, hdrop2]

theorem elemValue_docElement (key d : Bytes) (hk : ∀ b ∈ key, b ≠ 0) :
    elemValue (docElement key d) = ⟨3, d⟩ := by
  have hidx : idxOfZero (key ++ 0 :: d) = some key.length := idxOfZero_append key d hk
  have hdrop : (key ++ 0 :: d).drop (key.length + 1) = d := by
    rw [show key ++ 0 :: d = (key ++ [0]) ++ d by simp]
    exact List.drop_left' (by simp)
  simp only [docElement, elemValue, hidx, hdrop]

theorem takeWhileNZ_append (key d : Bytes) (hk : ∀ b ∈ key, b ≠ 0) :
    (key ++ 0 :: d).takeWhile (· ≠ 0) = key := by
  induction key with
  | nil => simp [List.takeWhile_cons]
  | cons b bs ih =>
    have hb : b ≠ 0 := hk b (by simp)
    have ih' := ih (fun x hx => hk x (by simp [hx]))
    simp only [decide_not] at ih'
    simp [List.takeWhile_cons, hb, ih']

theorem elemKey_docElement (key d : Bytes) (hk : ∀ b ∈ key, b ≠ 0) :
    elemKey (docElement key d) = key := by
  simp only [docElement, elemKey, List.drop_succ_cons, List.drop_zero]
  exact takeWhileNZ_append key d hk

theorem length_le_arrayBody (k : Nat) (ds : List Bytes) :
    ds.length ≤ (arrayBody k ds).length := by
  induction ds generalizing k with
  | nil => simp [arrayBody]
  | cons d rest ih =>
    simp only [arrayBody, List.length_append, List.length_cons]
    have h1 := ih (k + 1)
    have h2 : 1 ≤ (docElement (itoaBytes k) d).length := by
      simp [docElement]
    omega

theorem valuesLoop_arrayBody (ds : List Bytes) (k : Nat) (acc : List BVal) (fuel : Nat)
    (hds : ∀ d ∈ ds, docHeaderOKb d = true) (hfuel : ds.length < fuel) :
    valuesLoop fuel (((arrayBody k ds).length : Int) + 1) (arrayBody k ds ++ [0]) acc
      = .ok (acc ++ ds.map fun d => ⟨3, d⟩) := by
  induction ds generalizing k acc fuel with
  | nil =>
    match fuel, hfuel with
    | fuel + 1, _ => simp [arrayBody, valuesLoop]
  | cons d rest ih =>
    match fuel, hfuel with
    | fuel + 1, hfuel =>
      have hd : docHeaderOKb d = true := hds d (by simp)
      have hrest : ∀ x ∈ rest, docHeaderOKb x = true := fun x hx => hds x (by simp [hx])
      have hkey := itoaBytes_ne_zero k
      have hre : readElement (arrayBody k (d :: rest) ++ [0])
          = some (docElement (itoaBytes k) d, arrayBody (k + 1) rest ++ [0]) := by
        rw [show arrayBody k (d :: rest) ++ [0]
            = docElement (itoaBytes k) d ++ (arrayBody (k + 1) rest ++ [0]) by
          simp [arrayBody]]
        exact readElement_docElement _ _ _ hkey hd
      simp only [valuesLoop]
      rw [if_pos (by
        have h2 : 2 ≤ (docElement (itoaBytes k) d).length := by
          simp [docElement]
          omega
        simp only [arrayBody, List.length_append]
        push_cast
        omega)]
      simp only [hre]
      have harith : ((arrayBody k (d :: rest)).length : Int) + 1
            - ((docElement (itoaBytes k) d).length : Int)
          = ((arrayBody (k + 1) rest).length : Int) + 1 := by
        simp only [arrayBody, List.length_append]
        push_cast
        ring
      rw [harith, elemValue_docElement _ _ hkey]
      rw [ih (k + 1) (acc ++ [(⟨3, d⟩ : BVal)]) fuel hrest
        (by simp only [List.length_cons] at hfuel; omega)]
      simp

theorem values_mkDocArray (ds : List Bytes) (hds : ∀ d ∈ ds, docHeaderOKb d = true)
    (hsz : (arrayBody 0 ds).length + 5 < 2147483648) :
    values (mkDocArray ds) = .ok (ds.map fun d => ⟨3, d⟩) := by
  have hassoc : mkDocArray ds
      = le32 ((arrayBody 0 ds).length + 5) ++ (arrayBody 0 ds ++ [0]) := by
    simp [mkDocArray, mkDoc]
  rw [hassoc]
  simp only [values, readLength_le32 _ _ hsz]
  have harith : (((arrayBody 0 ds).length + 5 : Nat) : Int) - 4
      = ((arrayBody 0 ds).length : Int) + 1 := by push_cast; ring
  rw [harith]
  have hfuel : ds.length < (arrayBody 0 ds ++ [0]).length + 1 := by
    have := length_le_arrayBody 0 ds
    simp only [List.length_append, List.length_cons]
    omega
  exact valuesLoop_arrayBody ds 0 [] _ hds hfuel

theorem normalizeAll_length (f : GoValue → Except GoErr Bytes) :
    ∀ es ds, normalizeAll f es = .ok ds → ds.length = es.length := by
  intro es
  induction es with
  | nil =>
    intro ds h
    simp only [normalizeAll] at h
    cases h
    rfl
  | cons v rest ih =>
    intro ds h
    simp only [normalizeAll] at h
    cases hm : f v with
    | error e => rw [hm] at h; cases h
    | ok d =>
      rw [hm] at h
      cases hr : normalizeAll f rest with
      | error e => rw [hr] at h; cases h
      | ok ds' =>
        rw [hr] at h
        cases h
        simp [ih ds' hr]

theorem normalizeAll_headerOK (es : List GoValue) (ds : List Bytes)
    (hwf : ∀ e ∈ es, ∀ d, marshal e = .ok d → docHeaderOKb d = true)
    (h : normalizeAll marshal es = .ok ds) :
    ∀ d ∈ ds, docHeaderOKb d = true := by
  induction es generalizing ds with
  | nil =>
    simp only [normalizeAll] at h
    cases h
    simp
  | cons v rest ih =>
    simp only [normalizeAll] at h
    cases hm : marshal v with
    | error e => rw [hm] at h; cases h
    | ok d =>
      rw [hm] at h
      cases hr : normalizeAll marshal rest with
      | error e => rw [hr] at h; cases h
      | ok ds' =>
        rw [hr] at h
        cases h
        intro x hx
        cases hx with
        | head => exact hwf v (List.mem_cons_self v rest) d hm
        | tail _ hmem =>
          exact ih ds' (fun e he => hwf e (List.mem_cons_of_mem v he)) hr x hmem

theorem pipelineLoop_spec (es : List GoValue) (k : Nat) (acc : Bytes) (hos : Bool) :
    pipelineLoop es k acc hos =
      match normalizeAll marshal es with
      | .error e => .error e
      | .ok ds => .ok (appendDocumentEnd (acc ++ arrayBody k ds) 0, lastCheck ds hos) := by
  induction es generalizing k acc hos with
  | nil => simp [pipelineLoop, normalizeAll, arrayBody, lastCheck]
  | cons v rest ih =>
    simp only [pipelineLoop, normalizeAll]
    cases hm : marshal v with
    | error e => rfl
    | ok d =>
      dsimp only
      rw [ih]
      cases hr : normalizeAll marshal rest with
      | error e => rfl
      | ok ds =>
        dsimp only
        have hlen := normalizeAll_length marshal rest ds hr
        have hshape : (acc ++ docElement (itoaBytes k) d) ++ arrayBody (k + 1) ds
            = acc ++ arrayBody k (d :: ds) := by
          simp [arrayBody]
        rw [hshape]
        cases ds with
        | nil =>
          have h0 : rest = [] := by
            have h1 := hlen
            simp only [List.length_nil] at h1
            exact List.length_eq_zero.1 h1.symm
          subst h0
          simp [lastCheck]
        | cons d2 ds' =>
          have hie : rest.isEmpty = false := by
            cases rest with
            | nil => simp at hlen
            | cons _ _ => rfl
          rw [hie]
          simp [lastCheck, List.getLast?_cons_cons]

theorem appendDocumentEnd_zeroStart (body : Bytes) :
    appendDocumentEnd ([0, 0, 0, 0] ++ body) 0 = mkDoc body := by
  simp only [appendDocumentEnd]
  rw [if_neg (by
    simp only [List.length_append, List.length_cons, List.length_nil]
    omega)]
  simp only [updateLength, List.take_zero, List.nil_append]
  have hdrop : (([0, 0, 0, 0] ++ body) ++ [0]).drop (0 + 4) = body ++ [0] := by
    rw [List.append_assoc]
    rfl
  have hlen : (([0, 0, 0, 0] ++ body) ++ [0]).length - 0 = body.length + 5 := by
    simp only [List.length_append, List.length_cons, List.length_nil]
    omega
  rw [hdrop, hlen]
  simp [mkDoc]

theorem updateLoop_spec (checker : Bytes → Except GoErr Unit) (es : List GoValue)
    (k : Nat) (acc : Bytes) :
    updateLoop checker es k acc =
      match normalizeAll (checkedWith checker) es with
      | .error e => .error e
      | .ok ds => .ok (appendDocumentEnd (acc ++ arrayBody k ds) 0) := by
  induction es generalizing k acc with
  | nil => simp [updateLoop, normalizeAll, arrayBody]
  | cons v rest ih =>
    simp only [updateLoop, normalizeAll, checkedWith]
    cases hm : marshal v with
    | error e => rfl
    | ok d =>
      dsimp only
      cases hc : checker d with
      | error e => rfl
      | ok u =>
        dsimp only
        rw [ih]
        cases hr : normalizeAll (checkedWith checker) rest with
        | error e => rfl
        | ok ds =>
          dsimp only
          have hshape : (acc ++ docElement (itoaBytes k) d) ++ arrayBody (k + 1) ds
              = acc ++ arrayBody k (d :: ds) := by
            simp [arrayBody]
          rw [hshape]

theorem appendDocumentEnd_reserved (A body : Bytes) :
    appendDocumentEnd (A ++ ([0, 0, 0, 0] ++ body)) A.length
      = A ++ (le32 (body.length + 5) ++ (body ++ [0])) := by
  simp only [appendDocumentEnd]
  rw [if_neg (by
    simp only [List.length_append, List.length_cons, List.length_nil]
    omega)]
  simp only [updateLength]
  have h1 : ((A ++ ([0, 0, 0, 0] ++ body)) ++ [0]).take A.length = A := by
    rw [List.append_assoc]
    exact List.take_left A _
  have h2 : ((A ++ ([0, 0, 0, 0] ++ body)) ++ [0]).drop (A.length + 4) = body ++ [0] := by
    rw [show (A ++ ([0, 0, 0, 0] ++ body)) ++ [0]
        = (A ++ [0, 0, 0, 0]) ++ (body ++ [0]) by simp]
    exact List.drop_left' (by simp)
  have h3 : ((A ++ ([0, 0, 0, 0] ++ body)) ++ [0]).length - A.length = body.length + 5 := by
    simp only [List.length_append, List.length_cons, List.length_nil]
    omega
  rw [h1, h2, h3]
  simp [List.append_assoc]

theorem appendEndStart (dst key body : Bytes) :
    appendDocumentEnd ((appendDocumentElementStart dst key).2 ++ body)
        (appendDocumentElementStart dst key).1
      = dst ++ docElement key (mkDoc body) := by
  simp only [appendDocumentElementStart, reserveLength, appendHeader]
  rw [List.append_assoc]
  rw [appendDocumentEnd_reserved]
  simp [docElement, mkDoc, List.append_assoc]

theorem length_mkDoc (body : Bytes) : (mkDoc body).length = body.length + 5 := by
  simp [mkDoc, le32]

theorem specHasOutputStage_mkDocArray (ds : List Bytes)
    (hds : ∀ d ∈ ds, docHeaderOKb d = true)
    (hsz : (arrayBody 0 ds).length + 5 < 2147483648) :
    specHasOutputStage (mkDocArray ds) = lastCheck ds false := by
  unfold specHasOutputStage
  rw [values_mkDocArray ds hds hsz]
  simp only [Except.toOption, Option.getD]
  unfold lastStageIsOutput lastCheck
  rw [List.getLast?_map]
  cases ds.getLast? with
  | none => rfl
  | some d => simp [documentOK]

theorem elemsWF_imp (v : GoValue) (hwf : elemsWF v = true) :
    ∀ e ∈ elemsOf v, ∀ d, marshal e = .ok d → docHeaderOKb d = true := by
  intro e he d hd
  have h1 := (List.all_eq_true.1 hwf) e he
  rw [hd] at h1
  exact h1

theorem pipelineLoop_hasOutputStage (es : List GoValue) (arr : Bytes) (b : Bool)
    (hwf : ∀ e ∈ es, ∀ d, marshal e = .ok d → docHeaderOKb d = true)
    (hsz : (arr.length : Int) < 2147483648)
    (h : pipelineLoop es 0 (reserveLength []).2 false = .ok (arr, b)) :
    b = specHasOutputStage arr := by
  rw [pipelineLoop_spec] at h
  cases hn : normalizeAll marshal es with
  | error e =>
    rw [hn] at h
    cases h
  | ok ds =>
    rw [hn] at h
    dsimp only at h
    have hstart : (reserveLength []).2 ++ arrayBody 0 ds = [0, 0, 0, 0] ++ arrayBody 0 ds := by
      simp [reserveLength]
    rw [hstart, appendDocumentEnd_zeroStart] at h
    simp only [Except.ok.injEq, Prod.mk.injEq] at h
    obtain ⟨h1, h2⟩ := h
    subst h1
    subst h2
    have hds := normalizeAll_headerOK es ds hwf hn
    have hsz' : (arrayBody 0 ds).length + 5 < 2147483648 := by
      rw [length_mkDoc] at hsz
      exact_mod_cast hsz
    exact (specHasOutputStage_mkDocArray ds hds hsz').symm

/-- Claim C1: for every pipeline accepted by `marshalAggregatePipeline` (any
input shape, assuming the external encoder's documents carry correct length
headers and the result fits in a signed 32-bit length), the returned
`hasOutputStage` boolean is true exactly when the normalized pipeline is
non-empty, its last value is a document, and that document's first field key
is `$out` or `$merge`; an empty pipeline yields `false`. -/
theorem marshalAggregatePipeline_hasOutputStage (v : GoValue) (arr : Bytes) (b : Bool)
    (hwf : elemsWF v = true) (hsz : (arr.length : Int) < 2147483648)
    (h : marshalAggregatePipeline v = .ok (arr, b)) :
    b = specHasOutputStage arr := by
  have hwf' := elemsWF_imp v hwf
  cases v with
  | goNil => simp [marshalAggregatePipeline] at h
  | bsonMarshaler res => simp [marshalAggregatePipeline] at h
  | scalar enc => simp [marshalAggregatePipeline] at h
  | valueMarshaler res =>
    cases res with
    | error e => simp [marshalAggregatePipeline] at h
    | ok p =>
      obtain ⟨t, val⟩ := p
      by_cases ht : t = 4
      · subst ht
        simp only [marshalAggregatePipeline, ne_eq, not_true_eq_false, if_false,
          ite_false, if_neg] at h
        simp only [Except.ok.injEq, Prod.mk.injEq] at h
        obtain ⟨h1, h2⟩ := h
        subst h1
        subst h2
        rfl
      · simp [marshalAggregatePipeline, ht] at h
  | bsonD n enc =>
    simp only [marshalAggregatePipeline] at h
    by_cases hn : 0 < n
    · rw [if_pos hn] at h
      cases h
    · rw [if_neg hn] at h
      exact pipelineLoop_hasOutputStage [] arr b (by simp) hsz h
  | goRaw bs =>
    simp only [marshalAggregatePipeline] at h
    by_cases hn : 0 < bs.length
    · rw [if_pos hn] at h
      cases h
    · rw [if_neg hn] at h
      exact pipelineLoop_hasOutputStage [] arr b (by simp) hsz h
  | coreDoc bs =>
    simp only [marshalAggregatePipeline] at h
    by_cases hn : 0 < bs.length
    · rw [if_pos hn] at h
      cases h
    · rw [if_neg hn] at h
      exact pipelineLoop_hasOutputStage [] arr b (by simp) hsz h
  | goBytes bs =>
    simp only [marshalAggregatePipeline] at h
    exact pipelineLoop_hasOutputStage (elemsOf (.goBytes bs)) arr b hwf' hsz h
  | slice es =>
    simp only [marshalAggregatePipeline] at h
    exact pipelineLoop_hasOutputStage es arr b hwf' hsz h
  | coreArr bs =>
    simp only [marshalAggregatePipeline] at h
    by_cases hv : validateArr bs = true
    · rw [if_pos hv] at h
      cases hvals : values bs with
      | error e =>
        rw [hvals] at h
        cases h
      | ok vs =>
        rw [hvals] at h
        dsimp only at h
        by_cases h0 : vs.length = 0
        · rw [if_pos h0] at h
          simp only [Except.ok.injEq, Prod.mk.injEq] at h
          obtain ⟨h1, h2⟩ := h
          subst h1
          subst h2
          have hvs : vs = [] := List.length_eq_zero.1 h0
          subst hvs
          simp [specHasOutputStage, hvals, Except.toOption, lastStageIsOutput]
        · rw [if_neg h0] at h
          simp only [Except.ok.injEq, Prod.mk.injEq] at h
          obtain ⟨h1, h2⟩ := h
          subst h1
          subst h2
          simp [specHasOutputStage, hvals, Except.toOption]
    · rw [if_neg hv] at h
      cases h

/-- Witness for claim C1 at a concrete two-stage pipeline whose final stage
is keyed `$out`. -/
theorem marshalAggregatePipeline_hasOutputStage_witness :
    true = specHasOutputStage
      [44, 0, 0, 0, 3, 48, 0, 18, 0, 0, 0, 3, 36, 109, 97, 116, 99, 104, 0,
       5, 0, 0, 0, 0, 0, 3, 49, 0, 15, 0, 0, 0, 16, 36, 111, 117, 116, 0,
       1, 0, 0, 0, 0, 0] :=
  marshalAggregatePipeline_hasOutputStage
    (.slice [.goRaw [18, 0, 0, 0, 3, 36, 109, 97, 116, 99, 104, 0, 5, 0, 0, 0, 0, 0],
             .goRaw [15, 0, 0, 0, 16, 36, 111, 117, 116, 0, 1, 0, 0, 0, 0]])
    [44, 0, 0, 0, 3, 48, 0, 18, 0, 0, 0, 3, 36, 109, 97, 116, 99, 104, 0,
     5, 0, 0, 0, 0, 0, 3, 49, 0, 15, 0, 0, 0, 16, 36, 111, 117, 116, 0,
     1, 0, 0, 0, 0, 0] true
    (by decide) (by decide) (by decide)

theorem idKey_ne_zero : ∀ b ∈ idKey, b ≠ 0 := by decide

theorem readElement_oidElement (oidp rest : Bytes) (h12 : oidp.length = 12) :
    readElement (7 :: (idKey ++ 0 :: (oidp ++ rest)))
      = some (7 :: (idKey ++ 0 :: oidp), rest) := by
  have hidx : idxOfZero (idKey ++ 0 :: (oidp ++ rest)) = some idKey.length :=
    idxOfZero_append _ _ idKey_ne_zero
  have hdrop : (idKey ++ 0 :: (oidp ++ rest)).drop (idKey.length + 1) = oidp ++ rest := by
    rw [show idKey ++ 0 :: (oidp ++ rest) = (idKey ++ [0]) ++ (oidp ++ rest) by simp]
    exact List.drop_left' (by simp)
  have hvl : valueLength ((idKey ++ 0 :: (oidp ++ rest)).drop (idKey.length + 1)) 7
      = some 12 := by
    rw [hdrop]
    simp [valueLength]
  have hk3 : idKey.length = 3 := by decide
  have hdl : (7 :: (idKey ++ 0 :: oidp)).length = idKey.length + 2 + 12 := by
    simp only [List.length_cons, List.length_append]
    omega
  have hsplit : 7 :: (idKey ++ 0 :: (oidp ++ rest)) = (7 :: (idKey ++ 0 :: oidp)) ++ rest := by
    simp
  have htake : (7 :: (idKey ++ 0 :: (oidp ++ rest))).take (idKey.length + 2 + 12)
      = 7 :: (idKey ++ 0 :: oidp) := by
    rw [hsplit]
    exact List.take_left' hdl
  have hdrop2 : (7 :: (idKey ++ 0 :: (oidp ++ rest))).drop (idKey.length + 2 + 12) = rest := by
    rw [hsplit]
    exact List.drop_left' hdl
  simp only [readElement, hidx, hvl]
  rw [if_neg (by
    simp only [List.length_cons, List.length_append]
    push_cast
    omega)]
  have htn : (((idKey.length : Int)) + 2 + 12).toNat = idKey.length + 2 + 12 := by omega
  rw [htn, htake, hdrop2]

theorem ensureID_drop4 (doc oidp : Bytes) :
    ((appendObjectIDElement (reserveLength []).2 idKey oidp) ++ doc.drop 4).drop 4
      = 7 :: (idKey ++ 0 :: oidp) ++ doc.drop 4 := by
  simp [appendObjectIDElement, appendHeader, reserveLength, List.append_assoc]

theorem ensureID_len (doc oidp : Bytes) (h4 : 4 ≤ doc.length) (h12 : oidp.length = 12) :
    ((appendObjectIDElement (reserveLength []).2 idKey oidp) ++ doc.drop 4).length
      = doc.length + 17 := by
  have hk3 : idKey.length = 3 := by decide
  simp only [appendObjectIDElement, appendHeader, reserveLength, List.length_append,
    List.length_cons, List.length_nil, List.length_drop, hk3, h12]
  omega

/-- Claim C2: for every document lacking an `_id` field, `ensureID` returns a
document made of a recomputed length header, an `_id` object-identifier
element carrying the supplied identifier (or the freshly generated one when
the supplied identifier is zero), and then all original element bytes in
their original order; the first parsed element of the result is that `_id`
element, and the returned identifier is non-zero. -/
theorem ensureID_missing_id (doc oid fresh : Bytes)
    (hno : (lookupErr doc idKey).isOk = false)
    (h4 : 4 ≤ doc.length) (hsz : doc.length + 17 < 2147483648)
    (ho : oid.length = 12) (hf : fresh.length = 12) (hfz : fresh ≠ zeroOID) :
    ensureID doc oid fresh
        = .ok (le32 (doc.length + 17)
            ++ 7 :: (idKey ++ 0 :: (if oid = zeroOID then fresh else oid)) ++ doc.drop 4,
            .fromOID (if oid = zeroOID then fresh else oid))
      ∧ (if oid = zeroOID then fresh else oid) ≠ zeroOID
      ∧ indexErr (le32 (doc.length + 17)
            ++ 7 :: (idKey ++ 0 :: (if oid = zeroOID then fresh else oid)) ++ doc.drop 4) 0
          = .ok (7 :: (idKey ++ 0 :: (if oid = zeroOID then fresh else oid))) := by
  cases hl : lookupErr doc idKey with
  | ok v =>
    rw [hl] at hno
    simp [Except.isOk, Except.toBool] at hno
  | error e =>
    have ho' : (if oid = zeroOID then fresh else oid).length = 12 := by
      split <;> assumption
    have hoz : (if oid = zeroOID then fresh else oid) ≠ zeroOID := by
      split
      · exact hfz
      · assumption
    refine ⟨?_, hoz, ?_⟩
    · simp only [ensureID, hl]
      rw [ensureID_len doc _ h4 ho']
      simp only [updateLength, List.take_zero, List.nil_append]
      rw [show (0 : Nat) + 4 = 4 from rfl]
      rw [ensureID_drop4 doc _]
      simp [List.append_assoc]
    · have hgt : 5 < doc.length + 17 := by omega
      simp only [indexErr]
      rw [show le32 (doc.length + 17)
            ++ 7 :: (idKey ++ 0 :: (if oid = zeroOID then fresh else oid)) ++ doc.drop 4
          = le32 (doc.length + 17)
            ++ (7 :: (idKey ++ 0 :: ((if oid = zeroOID then fresh else oid) ++ doc.drop 4)))
          by simp]
      rw [readLength_le32 _ _ (by omega)]
      simp only [indexLoop]
      rw [if_pos (by push_cast; omega)]
      rw [readElement_oidElement _ _ ho']
      simp

/-- Witness for claim C2: injecting into a one-field document with a zero
supplied identifier uses the freshly generated identifier. -/
theorem ensureID_missing_id_witness :
    ensureID [12, 0, 0, 0, 16, 120, 0, 2, 0, 0, 0, 0] zeroOID
        [1, 0, 0, 0, 0, 0, 0, 0, 0, 0, 0, 0]
      = .ok ([29, 0, 0, 0, 7, 95, 105, 100, 0, 1, 0, 0, 0, 0, 0, 0, 0, 0, 0, 0, 0,
              16, 120, 0, 2, 0, 0, 0, 0],
             .fromOID [1, 0, 0, 0, 0, 0, 0, 0, 0, 0, 0, 0]) := by
  have h := ensureID_missing_id [12, 0, 0, 0, 16, 120, 0, 2, 0, 0, 0, 0] zeroOID
    [1, 0, 0, 0, 0, 0, 0, 0, 0, 0, 0, 0]
    (by decide) (by decide) (by decide) (by decide) (by decide) (by decide)
  rw [h.1]
  decide

/-- Claim C8: for every document already containing an `_id` field, `ensureID`
returns the document unchanged (byte-identical) plus the decoded value of the
stored `_id` element, and a decode failure surfaces as an error with no
document returned. -/
theorem ensureID_existing_id (doc oid fresh : Bytes) (v : BVal)
    (h : lookupErr doc idKey = .ok v) :
    (∀ idVal, decodeIDValue v = .ok idVal →
      ensureID doc oid fresh = .ok (doc, idVal) ∧ idVal = .fromBSON v)
    ∧ (∀ e, decodeIDValue v = .error e → ensureID doc oid fresh = .error e) := by
  constructor
  · intro idVal hdec
    constructor
    · simp only [ensureID, h, hdec]
    · simp only [decodeIDValue] at hdec
      split at hdec
      · simp only [Except.ok.injEq] at hdec
        exact hdec.symm
      · cases hdec
  · intro e hdec
    simp only [ensureID, h, hdec]

/-- Witness for claim C8 at a document storing an `int32` identifier. -/
theorem ensureID_existing_id_witness :
    ensureID [14, 0, 0, 0, 16, 95, 105, 100, 0, 2, 0, 0, 0, 0] zeroOID zeroOID
      = .ok ([14, 0, 0, 0, 16, 95, 105, 100, 0, 2, 0, 0, 0, 0],
             .fromBSON ⟨16, [2, 0, 0, 0]⟩) :=
  ((ensureID_existing_id [14, 0, 0, 0, 16, 95, 105, 100, 0, 2, 0, 0, 0, 0] zeroOID zeroOID
      ⟨16, [2, 0, 0, 0]⟩ (by decide)).1
    (.fromBSON ⟨16, [2, 0, 0, 0]⟩) (by decide)).1

/-- Claim C5: marshaling a non-nil raw byte buffer returns a document
byte-identical to the input — the zero-copy fast path that reinterprets the
bytes as an already-encoded document instead of running the value encoder. -/
theorem marshal_byteSlice (bs : Bytes) : marshal (.goBytes bs) = .ok bs := rfl

/-- Claim C7: `ensureDollarKey` succeeds exactly when the document has a
first element whose key begins with the operator sigil, and errors otherwise
(no first element, or a first key without the sigil); `ensureNoDollarKey`
errors exactly when such a first element exists, and in particular succeeds
on the empty document. -/
theorem dollarKey_validators (doc : Bytes) :
    (ensureDollarKey doc).isOk = firstKeyStartsDollar doc
    ∧ (ensureNoDollarKey doc).isOk = !firstKeyStartsDollar doc
    ∧ ensureNoDollarKey (mkDoc []) = .ok () := by
  refine ⟨?_, ?_, by decide⟩
  · unfold ensureDollarKey firstKeyStartsDollar
    cases indexErr doc 0 with
    | error e => rfl
    | ok e =>
      by_cases hk : (elemKey e).head? = some 36
      · simp [hk, Except.isOk, Except.toBool]
      · simp [hk, Except.isOk, Except.toBool]
  · unfold ensureNoDollarKey firstKeyStartsDollar
    cases indexErr doc 0 with
    | error e => rfl
    | ok e =>
      by_cases hk : (elemKey e).head? = some 36
      · simp [hk, Except.isOk, Except.toBool]
      · simp [hk, Except.isOk, Except.toBool]

/-- Claim C4 (amended): a self-encoding update value fails with the type
mismatch error when its declared type is neither array nor document, and
otherwise its tagged bytes are returned as-is — no dollar-key structural
check runs in this branch for either declared type (the result does not
depend on which check was selected). -/
theorem marshalUpdateValue_valueMarshaler (res : Except EncErr (Nat × Bytes)) (dka : Bool) :
    marshalUpdateValue (.valueMarshaler res) dka =
      match res with
      | .error e => .error (.encErr e)
      | .ok (t, data) =>
        if t ≠ 4 ∧ t ≠ 3 then .error (.valueMarshalerWrongType t) else .ok ⟨t, data⟩ := by
  cases res with
  | error e => rfl
  | ok p => rfl

/-- Claim C4 counterexample: a self-encoding update declaring the document
type whose bytes lack a leading `$` key is returned untouched even though
the selected check (`ensureDollarKey`) rejects those bytes — the check is
not run before returning the document-tagged value. -/
theorem marshalUpdateValue_valueMarshaler_counterexample :
    marshalUpdateValue
        (.valueMarshaler (.ok (3, [12, 0, 0, 0, 16, 120, 0, 1, 0, 0, 0, 0]))) true
      = .ok ⟨3, [12, 0, 0, 0, 16, 120, 0, 1, 0, 0, 0, 0]⟩
    ∧ ensureDollarKey [12, 0, 0, 0, 16, 120, 0, 1, 0, 0, 0, 0]
      = .error .missingDollarKey := by
  decide

/-- Claim C10: a self-encoding pipeline value whose method succeeds and
declares the array type has its bytes returned as-is with no structural
validation — on bytes whose element enumeration fails the call still
succeeds with `hasOutputStage = false`, while the pre-encoded-array path
rejects those same bytes with a validation error. -/
theorem valueMarshaler_pipeline_unvalidated :
    (∀ bs, marshalAggregatePipeline (.valueMarshaler (.ok (4, bs)))
        = .ok (bs, specHasOutputStage bs))
    ∧ marshalAggregatePipeline (.valueMarshaler (.ok (4, badArr))) = .ok (badArr, false)
    ∧ (values badArr).isOk = false
    ∧ marshalAggregatePipeline (.coreArr badArr) = .error .validationFailed := by
  refine ⟨fun bs => rfl, by decide, by decide, by decide⟩

/-- Claim C3 counterexample: a non-empty raw `[]byte` pipeline does not fail
with the single-document pipeline-shape error; it fails with the per-element
marshal error of the generic slice path. -/
theorem pipeline_byteSlice_counterexample :
    marshalAggregatePipeline (.goBytes [1]) = .error (.marshalErr .unsupportedShape)
    ∧ marshalAggregatePipeline (.goBytes [1]) ≠ .error .invalidPipelineShape := by
  decide

/-- Claim C3 (amended): a non-empty `bson.D`, `bson.Raw` or
`bsoncore.Document` pipeline fails with the single-document pipeline-shape
error, and an empty one normalizes to the empty pipeline with no output
stage; a raw `[]byte` buffer is not in that case list — a non-empty one
fails with the element marshal error instead, while an empty one also
normalizes to the empty pipeline. -/
theorem pipeline_singleDocShapes (v : GoValue) (hs : singleDocShaped v = true) :
    (0 < shapeLen v → marshalAggregatePipeline v = .error .invalidPipelineShape)
    ∧ (shapeLen v = 0 → marshalAggregatePipeline v = .ok (emptyPipelineBytes, false))
    ∧ (∀ b bs, marshalAggregatePipeline (.goBytes (b :: bs))
        = .error (.marshalErr .unsupportedShape))
    ∧ marshalAggregatePipeline (.goBytes []) = .ok (emptyPipelineBytes, false) := by
  have hbytes : ∀ b bs, marshalAggregatePipeline (.goBytes (b :: bs))
      = .error (.marshalErr .unsupportedShape) := fun b bs => rfl
  have hempty : marshalAggregatePipeline (.goBytes [])
      = .ok (emptyPipelineBytes, false) := by decide
  cases v with
  | bsonD n enc =>
    refine ⟨?_, ?_, hbytes, hempty⟩
    · intro hn
      simp only [shapeLen] at hn
      simp only [marshalAggregatePipeline]
      rw [if_pos hn]
    · intro hn
      simp only [shapeLen] at hn
      subst hn
      rfl
  | goRaw bs =>
    refine ⟨?_, ?_, hbytes, hempty⟩
    · intro hn
      simp only [shapeLen] at hn
      simp only [marshalAggregatePipeline]
      rw [if_pos hn]
    · intro hn
      simp only [shapeLen] at hn
      have hb : bs = [] := List.length_eq_zero.1 hn
      subst hb
      rfl
  | coreDoc bs =>
    refine ⟨?_, ?_, hbytes, hempty⟩
    · intro hn
      simp only [shapeLen] at hn
      simp only [marshalAggregatePipeline]
      rw [if_pos hn]
    · intro hn
      simp only [shapeLen] at hn
      have hb : bs = [] := List.length_eq_zero.1 hn
      subst hb
      rfl
  | goNil => simp [singleDocShaped] at hs
  | goBytes bs => simp [singleDocShaped] at hs
  | coreArr bs => simp [singleDocShaped] at hs
  | bsonMarshaler res => simp [singleDocShaped] at hs
  | valueMarshaler res => simp [singleDocShaped] at hs
  | scalar enc => simp [singleDocShaped] at hs
  | slice es => simp [singleDocShaped] at hs

/-- Witness for claim C3 (amended) at a non-empty `bson.Raw` and an empty
ordered key/value sequence. -/
theorem pipeline_singleDocShapes_witness :
    marshalAggregatePipeline (.goRaw [5, 0, 0, 0, 0]) = .error .invalidPipelineShape
    ∧ marshalAggregatePipeline (.bsonD 0 (.ok [])) = .ok (emptyPipelineBytes, false) :=
  ⟨(pipeline_singleDocShapes (.goRaw [5, 0, 0, 0, 0]) (by decide)).1 (by decide),
   (pipeline_singleDocShapes (.bsonD 0 (.ok [])) (by decide)).2.1 (by decide)⟩

/-- Claim C6: a pipeline-style (sequence) update is normalized element by
element in order — each element marshaled to a document and the selected
dollar-key check run on every one of them, aborting with the first failing
element's error — and on success the array-tagged value holds the documents
keyed by their stringified zero-based indices. -/
theorem marshalUpdateValue_sequence (es : List GoValue) (dka : Bool) :
    marshalUpdateValue (.slice es) dka =
      match normalizeAll (checkedMarshal dka) es with
      | .error e => .error e
      | .ok ds => .ok ⟨4, mkDocArray ds⟩ := by
  simp only [marshalUpdateValue, checkedMarshal]
  rw [updateLoop_spec]
  cases hn : normalizeAll
      (checkedWith (if dka then ensureDollarKey else ensureNoDollarKey)) es with
  | error e => rfl
  | ok ds =>
    dsimp only
    have hstart : (reserveLength []).2 ++ arrayBody 0 ds = [0, 0, 0, 0] ++ arrayBody 0 ds := by
      simp [reserveLength]
    rw [hstart, appendDocumentEnd_zeroStart]
    rfl

theorem appendEndStart_doc (dst key k2 fd : Bytes) :
    appendDocumentEnd (appendDocumentElement (appendDocumentElementStart dst key).2 k2 fd)
        (appendDocumentElementStart dst key).1
      = dst ++ docElement key (mkDoc (docElement k2 fd)) := by
  have h : appendDocumentElement (appendDocumentElementStart dst key).2 k2 fd
      = (appendDocumentElementStart dst key).2 ++ docElement k2 fd := by
    simp [appendDocumentElement, appendHeader, docElement, List.append_assoc]
  rw [h, appendEndStart]

theorem appendEndStart_i64 (dst key k2 : Bytes) (n : Int) :
    appendDocumentEnd (appendInt64Element (appendDocumentElementStart dst key).2 k2 n)
        (appendDocumentElementStart dst key).1
      = dst ++ docElement key (mkDoc (appendInt64Element [] k2 n)) := by
  have h : appendInt64Element (appendDocumentElementStart dst key).2 k2 n
      = (appendDocumentElementStart dst key).2 ++ appendInt64Element [] k2 n := by
    simp [appendInt64Element, appendHeader, List.append_assoc]
  rw [h, appendEndStart]

theorem appendEndStart_i32 (dst key k2 : Bytes) (n : Int) :
    appendDocumentEnd (appendInt32Element (appendDocumentElementStart dst key).2 k2 n)
        (appendDocumentElementStart dst key).1
      = dst ++ docElement key (mkDoc (appendInt32Element [] k2 n)) := by
  have h : appendInt32Element (appendDocumentElementStart dst key).2 k2 n
      = (appendDocumentElementStart dst key).2 ++ appendInt32Element [] k2 n := by
    simp [appendInt32Element, appendHeader, List.append_assoc]
  rw [h, appendEndStart]

theorem appendEndStart_i32doc (dst key k2 k3 d : Bytes) (n : Int) :
    appendDocumentEnd (appendInt32Element (appendDocumentElementStart dst key).2 k2 n
        ++ docElement k3 d) (appendDocumentElementStart dst key).1
      = dst ++ docElement key (mkDoc (appendInt32Element [] k2 n ++ docElement k3 d)) := by
  have h : appendInt32Element (appendDocumentElementStart dst key).2 k2 n ++ docElement k3 d
      = (appendDocumentElementStart dst key).2
          ++ (appendInt32Element [] k2 n ++ docElement k3 d) := by
    simp [appendInt32Element, appendHeader, List.append_assoc]
  rw [h, appendEndStart]

theorem appendDocumentEnd_root (X : Bytes) :
    appendDocumentEnd ((reserveLength []).2 ++ X) 0 = mkDoc X := by
  have h : (reserveLength ([] : Bytes)).2 ++ X = [0, 0, 0, 0] ++ X := by
    simp [reserveLength]
  rw [h, appendDocumentEnd_zeroStart]

/-- Claim C9: the count pipeline is the binary array holding, at sequential
stringified indices with no gaps, the `$match` stage, then the `$skip` stage
only when skip is present, then the `$limit` stage only when limit is
present, then the `$group` stage `{$group: {_id: 1, n: {$sum: 1}}}`; a
filter-marshal failure aborts before any stage is written.  With both
options present there are four stages, with neither there are two. -/
theorem countPipeline_stages :
    (∀ filter args, countDocumentsAggregatePipeline filter args =
      match marshal filter with
      | .error e => .error e
      | .ok fd => .ok (mkDocArray (countStages fd args)))
    ∧ (∀ fd n m, (countStages fd (some ⟨some n, some m⟩)).length = 4)
    ∧ (∀ fd, (countStages fd none).length = 2) := by
  refine ⟨fun filter args => ?_, fun fd n m => by simp [countStages],
    fun fd => by simp [countStages]⟩
  simp only [countDocumentsAggregatePipeline]
  cases hm : marshal filter with
  | error e => rfl
  | ok fd =>
    dsimp only
    rcases args with _ | ⟨sk, li⟩
    · dsimp only
      rw [appendEndStart_doc, appendEndStart_i32, appendEndStart_i32doc, appendEndStart]
      rw [show (reserveLength ([] : Bytes)).1 = 0 from rfl]
      rw [show ((reserveLength ([] : Bytes)).2 ++ docElement (itoaBytes 0)
            (mkDoc (docElement (strBytes "$match") fd))) ++ docElement (itoaBytes 1)
            (mkDoc (docElement (strBytes "$group")
              (mkDoc (appendInt32Element [] (strBytes "_id") 1 ++ docElement (strBytes "n")
                (mkDoc (appendInt32Element [] (strBytes "$sum") 1))))))
          = (reserveLength ([] : Bytes)).2 ++ (docElement (itoaBytes 0)
              (mkDoc (docElement (strBytes "$match") fd)) ++ docElement (itoaBytes 1)
              (mkDoc (docElement (strBytes "$group")
                (mkDoc (appendInt32Element [] (strBytes "_id") 1 ++ docElement (strBytes "n")
                  (mkDoc (appendInt32Element [] (strBytes "$sum") 1)))))))
        from by simp [List.append_assoc]]
      rw [appendDocumentEnd_root]
      simp [mkDocArray, countStages, arrayBody, matchStage, groupStage, List.append_assoc]
    · rcases sk with _ | n <;> rcases li with _ | m
      · dsimp only
        rw [appendEndStart_doc, appendEndStart_i32, appendEndStart_i32doc, appendEndStart]
        rw [show (reserveLength ([] : Bytes)).1 = 0 from rfl]
        rw [show ∀ A B : Bytes, ((reserveLength ([] : Bytes)).2 ++ A) ++ B
            = (reserveLength ([] : Bytes)).2 ++ (A ++ B) from fun A B => by
          simp [List.append_assoc]]
        rw [appendDocumentEnd_root]
        simp [mkDocArray, countStages, arrayBody, matchStage, groupStage, List.append_assoc]
      · dsimp only
        rw [appendEndStart_doc, appendEndStart_i64, appendEndStart_i32, appendEndStart_i32doc,
          appendEndStart]
        rw [show (reserveLength ([] : Bytes)).1 = 0 from rfl]
        rw [show ∀ A B C : Bytes, (((reserveLength ([] : Bytes)).2 ++ A) ++ B) ++ C
            = (reserveLength ([] : Bytes)).2 ++ (A ++ (B ++ C)) from fun A B C => by
          simp [List.append_assoc]]
        rw [appendDocumentEnd_root]
        simp [mkDocArray, countStages, arrayBody, matchStage, groupStage, limitStage,
          List.append_assoc]
      · dsimp only
        rw [appendEndStart_doc, appendEndStart_i64, appendEndStart_i32, appendEndStart_i32doc,
          appendEndStart]
        rw [show (reserveLength ([] : Bytes)).1 = 0 from rfl]
        rw [show ∀ A B C : Bytes, (((reserveLength ([] : Bytes)).2 ++ A) ++ B) ++ C
            = (reserveLength ([] : Bytes)).2 ++ (A ++ (B ++ C)) from fun A B C => by
          simp [List.append_assoc]]
        rw [appendDocumentEnd_root]
        simp [mkDocArray, countStages, arrayBody, matchStage, groupStage, skipStage,
          List.append_assoc]
      · dsimp only
        rw [appendEndStart_doc, appendEndStart_i64, appendEndStart_i64, appendEndStart_i32,
          appendEndStart_i32doc, appendEndStart]
        rw [show (reserveLength ([] : Bytes)).1 = 0 from rfl]
        rw [show ∀ A B C D : Bytes, ((((reserveLength ([] : Bytes)).2 ++ A) ++ B) ++ C) ++ D
            = (reserveLength ([] : Bytes)).2 ++ (A ++ (B ++ (C ++ D))) from fun A B C D => by
          simp [List.append_assoc]]
        rw [appendDocumentEnd_root]
        simp [mkDocArray, countStages, arrayBody, matchStage, groupStage, skipStage,
          limitStage, List.append_assoc]

end Mongo
